import Mathlib

/-!
Verification development for the saylorsolutions/x event-bus core.

The definitions below are shallow embeddings of the Go source:
  * `syncx/future.go`   — the resolve-once future with a cached result;
  * `structures/queue`  — the ordered priority queue and the channel queue;
  * `patterns/eventbus` — the event bus registration table, the dispatch
    worker body, and the `ParamSpec` parameter validator.

Errors are modelled as their message strings, Go channels as explicit
buffers inside a state record, and goroutine interleavings as explicit
action sequences over a step function.
-/

namespace SaylorX

/-- Go `error` values are modelled by their message string. -/
abbrev Err := String

/-! ## Future (`syncx/future.go`)

`future[T]` holds a 1-buffered channel `ch` of `resultPair`, a `sync.Once`
guard `resolve`, cached value/error slots, and a `cacheSet` wait group
(counter 1, decremented once the cache is populated).  The state of one
future is captured by the record below; `ResolveErr` runs atomically under
the `sync.Once` guard. -/

structure FutureState (α : Type) where
  /-- Content of the 1-buffered channel `ch` (`none` = empty). -/
  slot : Option (α × Option Err)
  /-- Whether `ch` has been closed. -/
  closed : Bool
  /-- Whether the `sync.Once` resolve guard has fired. -/
  resolved : Bool
  /-- `cacheVal` field; starts at the zero value of `T`. -/
  cacheVal : α
  /-- `cacheErr` field; starts at `nil`. -/
  cacheErr : Option Err
  /-- Whether `cacheSet.Done()` has been called (wait group open). -/
  cacheSet : Bool
  deriving Repr, DecidableEq

/-- `NewFuture`/`NewFutureErr`: fresh future with an empty 1-slot channel,
an unfired once-guard, and `cacheSet` waiting (counter 1). -/
def newFuture (zero : α) : FutureState α :=
  { slot := none, closed := false, resolved := false
    cacheVal := zero, cacheErr := none, cacheSet := false }

/-- `future.ResolveErr`: under the `sync.Once` guard, send the pair on the
channel, close it, populate the cache, and release the cache barrier.
Subsequent calls do nothing. -/
def resolveErr (val : α) (err : Option Err) (s : FutureState α) : FutureState α :=
  if s.resolved then s
  else
    { slot := some (val, err), closed := true, resolved := true
      cacheVal := val, cacheErr := err, cacheSet := true }

/-- `future.Resolve(val)` = `ResolveErr(val, nil)`. -/
def resolve (val : α) (s : FutureState α) : FutureState α :=
  resolveErr val none s

/-- The channel branch of `future.await`: defined exactly when the receive
from `f.ch` would not block (a pair is buffered, or the channel is closed).
Returns the received value/error pair and the post-state.  A buffered pair
is consumed; a closed empty channel waits on the cache barrier and reads
the cached pair.  `none` means the call would block (no resolution yet). -/
def awaitRecv (s : FutureState α) : Option ((α × Option Err) × FutureState α) :=
  match s.slot with
  | some pair => some (pair, { s with slot := none })
  | none =>
    if s.closed then
      if s.cacheSet then some ((s.cacheVal, s.cacheErr), s) else none
    else none

/-- The timeout branch of `future.await`: the context deadline fired, so the
zero value and the context error are returned and the future is untouched. -/
def awaitTimeout (zero : α) (s : FutureState α) : (α × Option Err) × FutureState α :=
  ((zero, some "context deadline exceeded"), s)

/-- One externally-visible operation on a future: a `ResolveErr` call or an
`Await`/`AwaitErr` call that completes through the channel branch. -/
inductive FutureOp (α : Type) where
  | resolveOp (val : α) (err : Option Err)
  | awaitOp
  deriving Repr

/-- Run a sequence of future operations, collecting the result of every
await that completed (an await that would block contributes nothing and
leaves the state unchanged, as the goroutine is still parked in `select`). -/
def runFutureOps (s : FutureState α) : List (FutureOp α) → List (α × Option Err) × FutureState α
  | [] => ([], s)
  | .resolveOp v e :: rest => runFutureOps (resolveErr v e s) rest
  | .awaitOp :: rest =>
    match awaitRecv s with
    | some (out, s') =>
      let (outs, sfin) := runFutureOps s' rest
      (out :: outs, sfin)
    | none => runFutureOps s rest

/-- After the first resolve the future is in its terminal shape. -/
def futureResolvedWith (val : α) (err : Option Err) : FutureState α :=
  { slot := some (val, err), closed := true, resolved := true
    cacheVal := val, cacheErr := err, cacheSet := true }

theorem resolveErr_newFuture (zero val : α) (err : Option Err) :
    resolveErr val err (newFuture zero) = futureResolvedWith val err := rfl

/-- Later resolves are no-ops on a resolved future. -/
theorem resolveErr_resolved {s : FutureState α} (h : s.resolved = true)
    (val : α) (err : Option Err) : resolveErr val err s = s := by
  simp [resolveErr, h]

/-- The two reachable post-resolution states: channel still holding the
pair, or channel drained with the cache populated. -/
def ResolvedInv (val : α) (err : Option Err) (s : FutureState α) : Prop :=
  s.resolved = true ∧ s.closed = true ∧ s.cacheSet = true ∧
    s.cacheVal = val ∧ s.cacheErr = err ∧
    (s.slot = some (val, err) ∨ s.slot = none)

theorem resolvedInv_futureResolvedWith (val : α) (err : Option Err) :
    ResolvedInv val err (futureResolvedWith val err) := by
  refine ⟨rfl, rfl, rfl, rfl, rfl, .inl rfl⟩

theorem awaitRecv_of_resolvedInv {val : α} {err : Option Err} {s : FutureState α}
    (h : ResolvedInv val err s) :
    ∃ s', awaitRecv s = some ((val, err), s') ∧ ResolvedInv val err s' := by
  obtain ⟨h1, h2, h3, h4, h5, h6⟩ := h
  cases h6 with
  | inl hs =>
    refine ⟨{ s with slot := none }, ?_, h1, h2, h3, h4, h5, .inr rfl⟩
    simp [awaitRecv, hs]
  | inr hs =>
    refine ⟨s, ?_, h1, h2, h3, h4, h5, .inr hs⟩
    simp [awaitRecv, hs, h2, h3, h4, h5]

theorem resolveErr_of_resolvedInv {val : α} {err : Option Err} {s : FutureState α}
    (h : ResolvedInv val err s) (v' : α) (e' : Option Err) :
    resolveErr v' e' s = s :=
  resolveErr_resolved h.1 v' e'

/-- Every await completing after the first resolve observes the first
resolve's arguments, whatever resolves/awaits are interleaved. -/
theorem runFutureOps_resolvedInv {val : α} {err : Option Err} {s : FutureState α}
    (h : ResolvedInv val err s) (ops : List (FutureOp α)) :
    ∀ out ∈ (runFutureOps s ops).1, out = (val, err) := by
  induction ops generalizing s with
  | nil => intro out hout; simp [runFutureOps] at hout
  | cons op rest ih =>
    intro out hout
    cases op with
    | resolveOp v e =>
      rw [runFutureOps, resolveErr_of_resolvedInv h v e] at hout
      exact ih h out hout
    | awaitOp =>
      obtain ⟨s', hrecv, hinv⟩ := awaitRecv_of_resolvedInv h
      rw [runFutureOps, hrecv] at hout
      simp only [List.mem_cons] at hout
      rcases hout with hout | hout
      · exact hout
      · exact ih hinv out hout

/-- C1: for a future created by `NewFuture`/`NewFutureErr`, only the first
`Resolve`/`ResolveErr` call sets the result: whatever later resolves and
awaits are interleaved, every `Await`/`AwaitErr` call that completes
without its timeout expiring — including repeated and late calls after the
one-slot channel has been drained — returns the first resolve's value and
error, so later resolve arguments are never observable. -/
theorem future_first_resolve_only_observable (zero v : α) (e : Option Err)
    (ops : List (FutureOp α)) :
    ∀ out ∈ (runFutureOps (resolveErr v e (newFuture zero)) ops).1, out = (v, e) := by
  have h : ResolvedInv v e (resolveErr v e (newFuture zero)) := by
    rw [resolveErr_newFuture]
    exact resolvedInv_futureResolvedWith v e
  exact runFutureOps_resolvedInv h ops

theorem future_first_resolve_only_observable_witness :
    (7, some "boom") ∈
        (runFutureOps (resolveErr 7 (some "boom") (newFuture (0 : Nat)))
          [.awaitOp, .resolveOp 9 none, .awaitOp, .awaitOp]).1 ∧
      (7, some "boom") = ((7 : Nat), some "boom") :=
  ⟨by decide,
    future_first_resolve_only_observable 0 7 (some "boom")
      [.awaitOp, .resolveOp 9 none, .awaitOp, .awaitOp] (7, some "boom") (by decide)⟩

/-- C10: an `Await`/`AwaitErr` call that returns because its timeout
elapsed before any resolution leaves the future untouched (nothing is
consumed or resolved, and the zero value plus the context error are
returned); a later resolve still sets the result exactly once, and every
subsequent completing await returns that resolved value and error. -/
theorem future_timeout_await_not_consuming (zero v : α) (e : Option Err)
    (s : FutureState α) (ops : List (FutureOp α)) :
    (awaitTimeout zero s).2 = s ∧
      (awaitTimeout zero s).1 = (zero, some "context deadline exceeded") ∧
      ∀ out ∈ (runFutureOps
          (resolveErr v e (awaitTimeout zero (newFuture zero)).2) ops).1,
        out = (v, e) := by
  refine ⟨rfl, rfl, ?_⟩
  have h : ResolvedInv v e (resolveErr v e (awaitTimeout zero (newFuture zero)).2) := by
    show ResolvedInv v e (resolveErr v e (newFuture zero))
    rw [resolveErr_newFuture]
    exact resolvedInv_futureResolvedWith v e
  exact runFutureOps_resolvedInv h ops

theorem future_timeout_await_not_consuming_witness :
    (5, none) ∈
        (runFutureOps
          (resolveErr 5 none (awaitTimeout (0 : Nat) (newFuture 0)).2)
          [.awaitOp, .awaitOp]).1 ∧
      (5, none) = ((5 : Nat), (none : Option Err)) :=
  ⟨by decide,
    (future_timeout_await_not_consuming 0 5 none (newFuture 0)
      [.awaitOp, .awaitOp]).2.2 (5, none) (by decide)⟩

/-! ## Ordered queue (`structures/queue`, `Queue[T]`)

`Queue[T].values` is a slice of `queueElement` records, each holding a
value and a `uint` priority.  All public operations run under the queue's
exclusive lock, so they are modelled as pure list functions. -/

structure QueueElement (V : Type) where
  val : V
  priority : Nat
  deriving Repr, DecidableEq

/-- The search loop of `Queue.PushRanked`: index of the first element whose
priority is strictly lower than `p` (`insertPos`/`found` in the source). -/
def findInsertPos (p : Nat) : List (QueueElement V) → Option Nat
  | [] => none
  | el :: rest =>
    if el.priority < p then some 0
    else (findInsertPos p rest).map (· + 1)

/-- `Queue.PushRanked`: priority 0 appends to the tail; otherwise the new
element is spliced in just before the first element of strictly lower
priority, or appended when no such element exists. -/
def pushRanked (v : V) (p : Nat) (q : List (QueueElement V)) : List (QueueElement V) :=
  if p = 0 then q ++ [⟨v, 0⟩]
  else
    match findInsertPos p q with
    | none => q ++ [⟨v, p⟩]
    | some i => q.take i ++ ⟨v, p⟩ :: q.drop i

/-- `Queue.Push`: append to the tail (priority 0). -/
def queuePush (v : V) (q : List (QueueElement V)) : List (QueueElement V) :=
  pushRanked v 0 q

/-- `Queue.pop`: remove and return the head element, or `none` when empty. -/
def queuePop : List (QueueElement V) → Option (QueueElement V × List (QueueElement V))
  | [] => none
  | el :: rest => some (el, rest)

/-- `Queue.pushHead`: place an element back at the head (used by the
channel queue to un-pop a peeked head). -/
def queuePushHead (el : QueueElement V) (q : List (QueueElement V)) : List (QueueElement V) :=
  el :: q

/-- `Queue.iterator`: repeatedly pop until empty, yielding each value. -/
def popAll : List (QueueElement V) → List V
  | [] => []
  | el :: rest => el.val :: popAll rest

/-- `popAll` is the `Pop` loop of `Queue.iterator`: yield the popped head
value until `Pop` reports empty. -/
theorem popAll_eq_pop_loop (q : List (QueueElement V)) :
    popAll q = match queuePop q with
      | none => []
      | some (el, rest) => el.val :: popAll rest := by
  cases q <;> rfl

theorem popAll_eq_map_val (q : List (QueueElement V)) : popAll q = q.map (·.val) := by
  induction q with
  | nil => rfl
  | cons el rest ih => simp [popAll, ih]

/-- Reference form of the ranked insert: skip the longest prefix of
priority ≥ `p`, splice in front of the first strictly-lower element. -/
def insertRanked (x : QueueElement V) : List (QueueElement V) → List (QueueElement V)
  | [] => [x]
  | y :: ys => if y.priority < x.priority then x :: y :: ys else y :: insertRanked x ys

theorem insertRanked_of_none {x : QueueElement V} {q : List (QueueElement V)}
    (h : ∀ y ∈ q, ¬ y.priority < x.priority) : insertRanked x q = q ++ [x] := by
  induction q with
  | nil => rfl
  | cons y ys ih =>
    rw [insertRanked, if_neg (h y (by simp))]
    simp [ih fun z hz => h z (by simp [hz])]

/-- `Queue.PushRanked` coincides with the reference ranked insert. -/
theorem pushRanked_eq_insertRanked (v : V) (p : Nat) (q : List (QueueElement V)) :
    pushRanked v p q = insertRanked ⟨v, p⟩ q := by
  by_cases hp : p = 0
  · subst hp
    rw [pushRanked, if_pos rfl, insertRanked_of_none]
    intro y _
    exact Nat.not_lt_zero _
  · rw [pushRanked, if_neg hp]
    induction q with
    | nil => rfl
    | cons y ys ih =>
      rw [insertRanked]
      by_cases hy : y.priority < p
      · rw [findInsertPos, if_pos hy, if_pos hy]
        rfl
      · rw [findInsertPos, if_neg hy, if_neg hy]
        cases hfind : findInsertPos p ys with
        | none =>
          rw [hfind] at ih
          simp only [Option.map_none']
          simpa using congrArg (y :: ·) ih
        | some i =>
          rw [hfind] at ih
          simp only [Option.map_some']
          simpa using congrArg (y :: ·) ih

/-- Splice characterization: the new element lands immediately before the
first existing element of strictly lower priority (the dropped suffix),
after the full prefix of elements with priority ≥ `p`. -/
theorem insertRanked_eq_takeWhile_dropWhile (x : QueueElement V) (q : List (QueueElement V)) :
    insertRanked x q =
      q.takeWhile (fun y => decide (x.priority ≤ y.priority)) ++
        x :: q.dropWhile (fun y => decide (x.priority ≤ y.priority)) := by
  induction q with
  | nil => rfl
  | cons y ys ih =>
    rw [insertRanked]
    by_cases hy : y.priority < x.priority
    · rw [if_pos hy, List.takeWhile_cons, List.dropWhile_cons]
      simp [Nat.not_le_of_lt hy]
    · rw [if_neg hy, List.takeWhile_cons, List.dropWhile_cons]
      simp only [decide_eq_true_eq]
      rw [if_pos (Nat.le_of_not_lt hy), if_pos (Nat.le_of_not_lt hy)]
      simp [ih]

theorem mem_insertRanked {z x : QueueElement V} {q : List (QueueElement V)} :
    z ∈ insertRanked x q ↔ z = x ∨ z ∈ q := by
  induction q with
  | nil => simp [insertRanked]
  | cons y ys ih =>
    rw [insertRanked]
    by_cases hy : y.priority < x.priority
    · simp [if_pos hy, or_comm, or_left_comm]
    · simp [if_neg hy, ih]
      tauto

theorem insertRanked_perm (x : QueueElement V) (q : List (QueueElement V)) :
    List.Perm (insertRanked x q) (x :: q) := by
  induction q with
  | nil => rfl
  | cons y ys ih =>
    rw [insertRanked]
    by_cases hy : y.priority < x.priority
    · rw [if_pos hy]
    · rw [if_neg hy]
      exact (List.Perm.cons y ih).trans (List.Perm.swap x y ys)

/-- Queue elements tagged with their push index: the intended order places
strictly higher priorities first and breaks priority ties by push order. -/
def QueueRel (a b : QueueElement (Nat × V)) : Prop :=
  b.priority < a.priority ∨ (a.priority = b.priority ∧ a.val.1 < b.val.1)

theorem pairwise_insertRanked {x : QueueElement (Nat × V)}
    {q : List (QueueElement (Nat × V))}
    (hq : List.Pairwise QueueRel q) (htag : ∀ y ∈ q, y.val.1 < x.val.1) :
    List.Pairwise QueueRel (insertRanked x q) := by
  induction q with
  | nil => simp [insertRanked]
  | cons y ys ih =>
    rw [List.pairwise_cons] at hq
    obtain ⟨hyrel, hys⟩ := hq
    rw [insertRanked]
    by_cases hy : y.priority < x.priority
    · rw [if_pos hy, List.pairwise_cons]
      refine ⟨?_, List.pairwise_cons.mpr ⟨hyrel, hys⟩⟩
      intro z hz
      rcases List.mem_cons.mp hz with hz | hz
      · subst hz
        exact .inl hy
      · rcases hyrel z hz with h | ⟨h, _⟩
        · exact .inl (h.trans hy)
        · exact .inl (h ▸ hy)
    · rw [if_neg hy, List.pairwise_cons]
      refine ⟨?_, ih hys fun z hz => htag z (by simp [hz])⟩
      intro z hz
      rcases mem_insertRanked.mp hz with hz | hz
      · rw [hz]
        rcases Nat.lt_or_ge x.priority y.priority with h | h
        · exact .inl h
        · exact .inr ⟨Nat.le_antisymm h (Nat.le_of_not_lt hy), htag y (by simp)⟩
      · exact hyrel z hz

/-- The bus-side run of a push sequence: each pushed value is tagged with
its push index so push order stays visible in the final queue. -/
def runTaggedAux (i : Nat) (q : List (QueueElement (Nat × V))) :
    List (V × Nat) → List (QueueElement (Nat × V))
  | [] => q
  | (v, p) :: rest => runTaggedAux (i + 1) (pushRanked (i, v) p q) rest

/-- Run a `Push`/`PushRanked` sequence against a freshly created queue. -/
def runTagged (ops : List (V × Nat)) : List (QueueElement (Nat × V)) :=
  runTaggedAux 0 [] ops

/-- The pushed elements themselves, tagged from index `i`. -/
def taggedFrom (i : Nat) : List (V × Nat) → List (QueueElement (Nat × V))
  | [] => []
  | (v, p) :: rest => ⟨(i, v), p⟩ :: taggedFrom (i + 1) rest

theorem runTaggedAux_pairwise (ops : List (V × Nat)) :
    ∀ (i : Nat) (q : List (QueueElement (Nat × V))),
      List.Pairwise QueueRel q → (∀ y ∈ q, y.val.1 < i) →
      List.Pairwise QueueRel (runTaggedAux i q ops) := by
  induction ops with
  | nil => intro i q hq _; exact hq
  | cons op rest ih =>
    intro i q hq htag
    obtain ⟨v, p⟩ := op
    rw [runTaggedAux]
    refine ih (i + 1) _ ?_ ?_
    · rw [pushRanked_eq_insertRanked]
      exact pairwise_insertRanked hq htag
    · intro y hy
      rw [pushRanked_eq_insertRanked] at hy
      rcases mem_insertRanked.mp hy with h | h
      · subst h
        exact Nat.lt_succ_self i
      · exact Nat.lt_succ_of_lt (htag y h)

theorem runTaggedAux_perm (ops : List (V × Nat)) :
    ∀ (i : Nat) (q : List (QueueElement (Nat × V))),
      List.Perm (runTaggedAux i q ops) (q ++ taggedFrom i ops) := by
  induction ops with
  | nil => intro i q; simp [runTaggedAux, taggedFrom]
  | cons op rest ih =>
    intro i q
    obtain ⟨v, p⟩ := op
    rw [runTaggedAux, taggedFrom]
    refine (ih (i + 1) _).trans ?_
    have h1 : List.Perm (pushRanked (i, v) p q) (⟨(i, v), p⟩ :: q) := by
      rw [pushRanked_eq_insertRanked]
      exact insertRanked_perm _ _
    exact (h1.append_right _).trans List.perm_middle.symm

/-- C4: running any `Push`/`PushRanked` sequence against a fresh ordered
queue and then popping until empty yields the queue contents in list order;
the final contents are exactly the pushed elements, pairwise arranged in
non-increasing priority with priority ties in push order; and each
`PushRanked(value, priority)` splices the element immediately before the
first existing element of strictly lower priority (appending when no such
element exists), with priority 0 always appending to the tail. -/
theorem queue_pushRanked_priority_order (ops : List (V × Nat)) (v : V) (p : Nat)
    (q : List (QueueElement V)) :
    popAll (runTagged ops) = (runTagged ops).map (·.val) ∧
      List.Pairwise QueueRel (runTagged ops) ∧
      List.Perm (runTagged ops) (taggedFrom 0 ops) ∧
      pushRanked v p q =
        q.takeWhile (fun y => decide (p ≤ y.priority)) ++
          ⟨v, p⟩ :: q.dropWhile (fun y => decide (p ≤ y.priority)) ∧
      pushRanked v 0 q = q ++ [⟨v, 0⟩] := by
  refine ⟨popAll_eq_map_val _, ?_, ?_, ?_, ?_⟩
  · exact runTaggedAux_pairwise ops 0 [] (by simp) (by simp)
  · simpa using runTaggedAux_perm ops 0 []
  · rw [pushRanked_eq_insertRanked]
    exact insertRanked_eq_takeWhile_dropWhile ⟨v, p⟩ q
  · rw [pushRanked, if_pos rfl]

/-! ## Channel queue (`structures/queue`, `ChannelQueue[T]`)

A `ChannelQueue` owns an input channel `recv`, an output channel `disp`
(field `C`), an internal ordered `Queue`, a cancellable context, and a
worker goroutine.  Its observable state is the record below; goroutine
interleavings are explicit action sequences over a step function.
`emitted` records every value sent on the output channel, in order. -/

structure CQState (V : Type) where
  /-- Pending contents of the input channel `recv`, oldest first. -/
  recv : List (QueueElement V)
  /-- The internal ordered `Queue`. -/
  queue : List (QueueElement V)
  /-- Values sent on the output channel `disp`/`C` so far, in order. -/
  emitted : List V
  /-- Whether the context has been cancelled (`Stop` called). -/
  stopping : Bool
  /-- Whether the worker has drained and closed the output channel. -/
  closed : Bool
  deriving Repr, DecidableEq

/-- `NewChannelQueue`: empty queue and channels, context live. -/
def cqInit : CQState V :=
  { recv := [], queue := [], emitted := [], stopping := false, closed := false }

/-- One scheduler-visible event on a `ChannelQueue`: a producer's accepted
`PushRanked`, the worker receiving one input, the worker handing the queue
head to the output channel, the worker observing cancellation, or the
worker's final drain of the stopping branch. -/
inductive CQAction (V : Type) where
  | pushA (v : V) (p : Nat)
  | recvA
  | dispatchA
  | stopA
  | drainA
  deriving Repr

/-- One step of the `ChannelQueue.worker` loop (or of a producer's
`PushRanked`).  `none` means the action is not enabled in this state. -/
def cqStep (s : CQState V) : CQAction V → Option (CQState V)
  | .pushA v p =>
    -- `PushRanked` selects on `ctx.Done()` first and drops the value once
    -- the context is cancelled; an accepted push lands in `recv`.
    if s.stopping ∨ s.closed then none
    else some { s with recv := s.recv ++ [⟨v, p⟩] }
  | .recvA =>
    if s.stopping ∨ s.closed then none
    else
      match s.recv with
      | [] => none
      | x :: rest =>
        match queuePop s.queue with
        | none =>
          -- empty-queue branch: insert the new element by priority
          some { s with recv := rest, queue := pushRanked x.val x.priority s.queue }
        | some (head, tail) =>
          -- non-empty branch: un-pop the peeked head, then insert
          some { s with recv := rest, queue := pushRanked x.val x.priority (queuePushHead head tail) }
  | .dispatchA =>
    if s.stopping ∨ s.closed then none
    else
      match queuePop s.queue with
      | none => none
      | some (head, tail) =>
        some { s with queue := tail, emitted := s.emitted ++ [head.val] }
  | .stopA =>
    if s.stopping ∨ s.closed then none
    else
      -- `ctx.Done()` branch: a peeked head is pushed back unchanged,
      -- `stopping` is set and `Stop` fires (idempotent).
      some { s with stopping := true }
  | .drainA =>
    if s.stopping ∧ ¬s.closed then
      -- stopping branch: nonblockingly drain every pending input into the
      -- ordered queue, then iterate all queued values onto the output,
      -- then close the output channel.
      let q' := s.recv.foldl (fun acc x => pushRanked x.val x.priority acc) s.queue
      some { s with recv := [], queue := [], emitted := s.emitted ++ popAll q', closed := true }
    else none

/-- Run a sequence of channel-queue actions; `none` if any action was not
enabled when its turn came. -/
def cqRun (s : CQState V) : List (CQAction V) → Option (CQState V)
  | [] => some s
  | a :: rest =>
    match cqStep s a with
    | none => none
    | some s' => cqRun s' rest

/-- The values pushed by the producers of an action sequence, in order. -/
def cqPushed : List (CQAction V) → List V
  | [] => []
  | .pushA v _ :: rest => v :: cqPushed rest
  | .recvA :: rest => cqPushed rest
  | .dispatchA :: rest => cqPushed rest
  | .stopA :: rest => cqPushed rest
  | .drainA :: rest => cqPushed rest

/-- All values currently owned by the channel queue — emitted, queued, or
still in the input channel — as a multiset. -/
def cqVals (s : CQState V) : Multiset V :=
  (s.emitted : Multiset V) + (s.queue.map (·.val) : Multiset V) +
    (s.recv.map (·.val) : Multiset V)

/-- Multiset of values a single action pushes (empty except for `pushA`). -/
def cqActPush : CQAction V → Multiset V
  | .pushA v _ => {v}
  | _ => 0

theorem mval_pushRanked (v : V) (p : Nat) (q : List (QueueElement V)) :
    ((pushRanked v p q).map (·.val) : Multiset V) = v ::ₘ (q.map (·.val) : Multiset V) := by
  rw [pushRanked_eq_insertRanked]
  have h := (insertRanked_perm ⟨v, p⟩ q).map (·.val)
  exact Multiset.coe_eq_coe.mpr h

theorem mval_foldl_pushRanked (xs : List (QueueElement V)) :
    ∀ q : List (QueueElement V),
      (((xs.foldl (fun acc x => pushRanked x.val x.priority acc) q).map (·.val) :
          Multiset V))
        = (q.map (·.val) : Multiset V) + (xs.map (·.val) : Multiset V) := by
  induction xs with
  | nil => intro q; simp
  | cons x rest ih =>
    intro q
    rw [List.foldl_cons, ih, mval_pushRanked]
    simp only [List.map_cons, ← Multiset.cons_coe]
    rw [Multiset.cons_add, Multiset.add_cons]

/-- Buffers are empty once the output channel has been closed. -/
def CQInv (s : CQState V) : Prop :=
  s.closed = true → s.recv = [] ∧ s.queue = []

/-- Per-step accounting: an enabled step adds exactly the pushed value (if
any) to the owned values, preserves the closed-buffers invariant, and is
never enabled after the output channel has closed. -/
theorem cqStep_vals {s s' : CQState V} {a : CQAction V} (h : cqStep s a = some s') :
    cqVals s' = cqVals s + cqActPush a ∧ (CQInv s → CQInv s') ∧ s.closed = false := by
  cases a with
  | pushA v p =>
    rw [cqStep] at h
    by_cases hs : s.stopping = true ∨ s.closed = true
    · simp [hs] at h
    · simp only [not_or, Bool.not_eq_true] at hs
      rw [if_neg (by simp [hs.1, hs.2])] at h
      obtain rfl := Option.some.inj h
      refine ⟨?_, fun _ => by simp [CQInv, hs.2], hs.2⟩
      simp only [cqVals, cqActPush, List.map_append, List.map_cons, List.map_nil,
        ← Multiset.coe_add, ← Multiset.cons_coe, Multiset.coe_nil]
      rw [← Multiset.singleton_add, ← Multiset.coe_singleton]
      abel
  | recvA =>
    rw [cqStep] at h
    by_cases hs : s.stopping = true ∨ s.closed = true
    · simp [hs] at h
    · simp only [not_or, Bool.not_eq_true] at hs
      rw [if_neg (by simp [hs.1, hs.2])] at h
      cases hrecv : s.recv with
      | nil => rw [hrecv] at h; exact absurd h (by simp)
      | cons x rest =>
        rw [hrecv] at h
        cases hq : s.queue with
        | nil =>
          rw [hq] at h
          simp only [queuePop] at h
          obtain rfl := Option.some.inj h
          refine ⟨?_, fun _ => by simp [CQInv, hs.2], hs.2⟩
          simp only [cqVals, cqActPush, hrecv, hq, mval_pushRanked, List.map_cons,
            List.map_nil, ← Multiset.cons_coe, Multiset.coe_nil]
          simp only [← Multiset.singleton_add]
          abel
        | cons hd tl =>
          rw [hq] at h
          simp only [queuePop] at h
          obtain rfl := Option.some.inj h
          refine ⟨?_, fun _ => by simp [CQInv, hs.2], hs.2⟩
          simp only [cqVals, cqActPush, hrecv, hq, queuePushHead, mval_pushRanked,
            List.map_cons, List.map_nil, ← Multiset.cons_coe, Multiset.coe_nil]
          simp only [← Multiset.singleton_add]
          abel
  | dispatchA =>
    rw [cqStep] at h
    by_cases hs : s.stopping = true ∨ s.closed = true
    · simp [hs] at h
    · simp only [not_or, Bool.not_eq_true] at hs
      rw [if_neg (by simp [hs.1, hs.2])] at h
      cases hq : s.queue with
      | nil => rw [hq] at h; simp [queuePop] at h
      | cons hd tl =>
        rw [hq] at h
        simp only [queuePop] at h
        obtain rfl := Option.some.inj h
        refine ⟨?_, fun _ => by simp [CQInv, hs.2], hs.2⟩
        simp only [cqVals, cqActPush, hq, List.map_append, List.map_cons, List.map_nil,
          ← Multiset.coe_add, ← Multiset.cons_coe, Multiset.coe_nil]
        simp only [← Multiset.singleton_add]
        abel
  | stopA =>
    rw [cqStep] at h
    by_cases hs : s.stopping = true ∨ s.closed = true
    · simp [hs] at h
    · simp only [not_or, Bool.not_eq_true] at hs
      rw [if_neg (by simp [hs.1, hs.2])] at h
      obtain rfl := Option.some.inj h
      exact ⟨by simp [cqVals, cqActPush], fun _ => by simp [CQInv, hs.2], hs.2⟩
  | drainA =>
    rw [cqStep] at h
    by_cases hcl : s.closed = true
    · rw [if_neg (by simp [hcl])] at h
      exact absurd h (by simp)
    · by_cases hst : s.stopping = true
      · rw [if_pos (by simp [hst, hcl])] at h
        obtain rfl := Option.some.inj h
        refine ⟨?_, fun _ => by simp [CQInv], by simpa using hcl⟩
        simp only [cqVals, cqActPush, popAll_eq_map_val, mval_foldl_pushRanked,
          List.map_append, List.map_nil, ← Multiset.coe_add, Multiset.coe_nil]
        abel
      · rw [if_neg (by simp [hst])] at h
        exact absurd h (by simp)

/-- Once the worker has closed the output channel, no further action is
enabled: the channel queue is fully stopped. -/
theorem cqStep_closed {s : CQState V} (h : s.closed = true) (a : CQAction V) :
    cqStep s a = none := by
  cases a <;> simp [cqStep, h]

theorem cqPushed_cons (a : CQAction V) (rest : List (CQAction V)) :
    (cqPushed (a :: rest) : Multiset V) = cqActPush a + (cqPushed rest : Multiset V) := by
  cases a <;>
    simp [cqPushed, cqActPush, ← Multiset.cons_coe, ← Multiset.singleton_add]

theorem cqRun_vals (acts : List (CQAction V)) :
    ∀ s s' : CQState V, cqRun s acts = some s' →
      cqVals s' = cqVals s + (cqPushed acts : Multiset V) ∧ (CQInv s → CQInv s') := by
  induction acts with
  | nil =>
    intro s s' h
    rw [cqRun] at h
    obtain rfl := Option.some.inj h
    exact ⟨by simp [cqPushed], id⟩
  | cons a rest ih =>
    intro s s' h
    rw [cqRun] at h
    cases hstep : cqStep s a with
    | none => rw [hstep] at h; exact absurd h (by simp)
    | some s₁ =>
      rw [hstep] at h
      obtain ⟨hv, hinv, -⟩ := cqStep_vals hstep
      obtain ⟨hv', hinv'⟩ := ih s₁ s' h
      refine ⟨?_, fun hi => hinv' (hinv hi)⟩
      rw [hv', hv, cqPushed_cons]
      abel

/-- C3: for every `ChannelQueue` run — any interleaving of accepted
`Push`/`PushRanked` calls with worker steps — that ends with the output
channel closed, the values delivered on the output channel are exactly the
accepted pushes: after cancellation the worker drains every pending input
into the ordered queue, emits every queued value, then closes the output,
and a closed queue admits no further step. -/
theorem channelQueue_zero_loss_shutdown (acts : List (CQAction V)) (s : CQState V)
    (hrun : cqRun cqInit acts = some s) (hclosed : s.closed = true) :
    List.Perm s.emitted (cqPushed acts) ∧ ∀ a, cqStep s a = none := by
  obtain ⟨hv, hinv⟩ := cqRun_vals acts cqInit s hrun
  have hinvs : CQInv s := hinv (by simp [CQInv, cqInit])
  obtain ⟨hr, hq⟩ := hinvs hclosed
  have hvals : cqVals s = (cqPushed acts : Multiset V) := by
    simpa [cqVals, cqInit] using hv
  rw [cqVals, hr, hq] at hvals
  simp only [List.map_nil, Multiset.coe_nil, add_zero] at hvals
  exact ⟨Multiset.coe_eq_coe.mp hvals, fun a => cqStep_closed hclosed a⟩

theorem channelQueue_zero_loss_shutdown_witness :
    List.Perm
        (({ recv := [], queue := [], emitted := [1, 4], stopping := true,
            closed := true } : CQState Nat).emitted)
        (cqPushed [CQAction.pushA 1 2, .pushA 4 0, .recvA, .stopA, .drainA]) :=
  (channelQueue_zero_loss_shutdown
    [CQAction.pushA 1 2, .pushA 4 0, .recvA, .stopA, .drainA]
    { recv := [], queue := [], emitted := [1, 4], stopping := true, closed := true }
    (by rfl) rfl).1

/-! ## Event bus dispatch API (`patterns/eventbus`, newest revision)

Reserved event ids and sentinel errors, the queued dispatch record, and
`EventBus.DispatchResult`. -/

/-- `EventNone`: reserved id 0, rejected at dispatch. -/
def EventNone : Int := 0

/-- `EventAsyncError`: reserved id 1, carries processing errors. -/
def EventAsyncError : Int := 1

def ErrNoHandler : Err := "no handler found"

def ErrInvalidEvent : Err := "event ID 0 cannot be dispatched"

def ErrShuttingDown : Err := "dispatch cannot be completed, event bus is shutting down"

/-- A `Param` is `any`: a user payload or an error payload. -/
inductive BusParam (P : Type) where
  | user (p : P)
  | errParam (e : Err)
  deriving Repr, DecidableEq

/-- `busDispatch`: the record queued per dispatch (event id and parameter
list; its future is tracked separately by the model). -/
structure BusDispatch (P : Type) where
  event : Int
  params : List (BusParam P)
  deriving Repr, DecidableEq

/-- Modelled from the spec: the boolean-returning `ChannelQueue.Push` /
`PushRanked` ("return true if accepted, false if the queue is
draining/stopped").  The `ChannelQueue` revision with this boolean result
is the one `EventBus.DispatchResult` calls, but it is absent from the
source tree, whose `structures/queue` revision differs only in not
reporting acceptance. -/
def cqPushBool (v : V) (p : Nat) (s : CQState V) : Bool × CQState V :=
  if s.stopping ∨ s.closed then (false, s)
  else (true, { s with recv := s.recv ++ [⟨v, p⟩] })

/-- The `Future[error]` value returned by `EventBus.DispatchResult`: a real
`NewFuture` future or a preset `StaticFuture`. -/
inductive FutureRet where
  | real (s : FutureState (Option Err))
  | preset (val : Option Err)
  deriving Repr, DecidableEq

/-- `EventBus.DispatchResult`: an `EventNone` event dispatches the
invalid-event error and returns a static future; otherwise a dispatch
record with a fresh future is pushed on the queue, and if the queue did
not accept it the future is resolved with the shutting-down sentinel. -/
def dispatchResult (evt : Int) (params : List (BusParam P))
    (qs : CQState (BusDispatch P)) : FutureRet × CQState (BusDispatch P) :=
  if evt = EventNone then
    let qs' := (cqPushBool ⟨EventAsyncError, [.errParam ErrInvalidEvent]⟩ 0 qs).2
    (.preset (some ErrInvalidEvent), qs')
  else
    let (ok, qs') := cqPushBool ⟨evt, params⟩ 0 qs
    let fut := newFuture (none : Option Err)
    if ok then (.real fut, qs') else (.real (resolve (some ErrShuttingDown) fut), qs')

/-- C7: once the dispatch queue is draining or stopped, `DispatchResult`
with a valid (non-`NONE`) event returns a future already resolved with the
shutting-down sentinel and does not enqueue the dispatch record; the
queue's push reports acceptance as a boolean that is false once draining
has begun. -/
theorem dispatchResult_after_draining (evt : Int) (params : List (BusParam P))
    (qs : CQState (BusDispatch P)) (hvalid : evt ≠ EventNone)
    (hdrain : qs.stopping = true ∨ qs.closed = true) :
    (dispatchResult evt params qs).1 =
        .real (futureResolvedWith (some ErrShuttingDown) none) ∧
      (dispatchResult evt params qs).2 = qs ∧
      ∀ (v : BusDispatch P) (p : Nat), (cqPushBool v p qs).1 = false := by
  have hpush : ∀ (v : BusDispatch P) (p : Nat), cqPushBool v p qs = (false, qs) := by
    intro v p
    rw [cqPushBool, if_pos (by rcases hdrain with h | h <;> simp [h])]
  rw [dispatchResult, if_neg hvalid]
  rw [hpush]
  exact ⟨rfl, rfl, fun v p => by rw [hpush]⟩

theorem dispatchResult_after_draining_witness :
    (dispatchResult 5 ([] : List (BusParam Nat))
          { recv := [], queue := [], emitted := [], stopping := true, closed := false }).1 =
        .real (futureResolvedWith (some ErrShuttingDown) none) ∧
      (dispatchResult 5 ([] : List (BusParam Nat))
          { recv := [], queue := [], emitted := [], stopping := true, closed := false }).2 =
        { recv := [], queue := [], emitted := [], stopping := true, closed := false } :=
  ⟨(dispatchResult_after_draining 5 [] _ (by decide) (.inl rfl)).1,
    (dispatchResult_after_draining 5 [] _ (by decide) (.inl rfl)).2.1⟩

/-! ## ParamSpec (`patterns/eventbus/paramspec.go`)

A `Param` may be absent (`nil`), modelled by `Option`.  A `ParamAssertion`
maps a position and a parameter to an error or `nil`; an entry of the
assertion list may itself be `nil` (skipped). -/

def ErrNotEnoughParams : Err := "not enough parameters"

/-- `ParamAssertion`: `func(pos int, p Param) error`. -/
def ParamAssertion (P : Type) := Nat → Option P → Option Err

/-- The wrapped not-enough-parameters error
(`fmt.Errorf("%w: expected at least %d parameters", ...)`). -/
def notEnoughParamsMsg (minParams : Int) : Err :=
  ErrNotEnoughParams ++ ": expected at least " ++ toString minParams ++ " parameters"

/-- The `for i := 0; i < len(assertions) && i < len(params); i++` loop of
`ParamSpec`, at starting position `i`: collects the errors of the non-nil
assertions in position order, and records which positions had a (non-nil)
assertion applied. -/
def paramSpecLoop : List (Option (ParamAssertion P)) → List (Option P) → Nat →
    List Err × List Nat
  | [], _, _ => ([], [])
  | _ :: _, [], _ => ([], [])
  | a :: as, p :: ps, i =>
    let (errs, applied) := paramSpecLoop as ps (i + 1)
    match a with
    | none => (errs, applied)
    | some f =>
      match f i p with
      | none => (errs, i :: applied)
      | some e => (e :: errs, i :: applied)

/-- `ParamSpec(minParams, assertions...)` applied to a parameter list:
returns the collected errors (`[]` plays Go's `nil`) paired with the
positions at which an assertion ran. -/
def paramSpec (minParams : Int) (assertions : List (Option (ParamAssertion P)))
    (params : List (Option P)) : List Err × List Nat :=
  if (params.length : Int) < minParams then ([notEnoughParamsMsg minParams], [])
  else paramSpecLoop assertions params 0

theorem paramSpecLoop_spec (assertions : List (Option (ParamAssertion P))) :
    ∀ (params : List (Option P)) (i : Nat),
      paramSpecLoop assertions params i =
        (((assertions.zip params).enumFrom i).filterMap
            (fun x => x.2.1.bind fun f => f x.1 x.2.2),
          ((assertions.zip params).enumFrom i).filterMap
            (fun x => if x.2.1.isSome then some x.1 else none)) := by
  induction assertions with
  | nil => intro params i; simp [paramSpecLoop]
  | cons a as ih =>
    intro params i
    cases params with
    | nil => simp [paramSpecLoop]
    | cons p ps =>
      rw [paramSpecLoop, ih ps (i + 1)]
      cases a with
      | none => simp [List.zip, List.enumFrom, List.filterMap_cons]
      | some f =>
        cases hf : f i p with
        | none => simp [List.zip, List.enumFrom, List.filterMap_cons, hf]
        | some e => simp [List.zip, List.enumFrom, List.filterMap_cons, hf]

/-- C8: `ParamSpec(min_params, assertions...)` returns exactly one error —
wrapping the not-enough-parameters sentinel — and runs no assertion when
`len(params) < min_params`; otherwise, for each position
`i < min(len(assertions), len(params))` the non-nil assertion at `i` is
applied to `params[i]`, nil assertions are skipped, assertions beyond the
params and params beyond the assertions are silently ignored (`zip`
truncates to the shorter list), and the result is nil (`[]`) exactly when
no assertion errored, else the list of all collected errors in position
order. -/
theorem paramSpec_contract (minParams : Int)
    (assertions : List (Option (ParamAssertion P))) (params : List (Option P)) :
    (paramSpec minParams assertions params =
        if (params.length : Int) < minParams then ([notEnoughParamsMsg minParams], [])
        else
          (((assertions.zip params).enum).filterMap
              (fun x => x.2.1.bind fun f => f x.1 x.2.2),
            ((assertions.zip params).enum).filterMap
              (fun x => if x.2.1.isSome then some x.1 else none))) ∧
      ∃ suffix, notEnoughParamsMsg minParams = ErrNotEnoughParams ++ suffix := by
  refine ⟨?_, ⟨": expected at least " ++ toString minParams ++ " parameters", by
    simp [notEnoughParamsMsg, String.append_assoc]⟩⟩
  rw [paramSpec]
  by_cases h : (params.length : Int) < minParams
  · rw [if_pos h, if_pos h]
  · rw [if_neg h, if_neg h, paramSpecLoop_spec, List.enum]

/-! ## Registration table (`patterns/eventbus`, newest revision)

`EventBus.handlers : map[HandlerID]Handler` and
`EventBus.handledEvents : map[Event]set.Set[HandlerID]`, mutated under the
exclusive lock by `Register`, `UnRegister`, `AddHandledEvent`,
`SetHandledExclusive` and `RemoveHandledEvent`.  The handler map is an
association list with overwrite-on-insert; a handled-event set is a
`Finset` of handler ids, defaulting to the empty set for unseen events
(Go's zero-value map access combined with `Set.Add` on a nil set). -/

abbrev HandlerID := String

def mapLookup (id : HandlerID) : List (HandlerID × H) → Option H
  | [] => none
  | (k, v) :: rest => if k = id then some v else mapLookup id rest

/-- `delete(m, id)` on a Go map. -/
def mapErase (id : HandlerID) (l : List (HandlerID × H)) : List (HandlerID × H) :=
  l.filter (fun kv => kv.1 ≠ id)

/-- `m[id] = h` on a Go map (overwrite). -/
def mapInsert (id : HandlerID) (h : H) (l : List (HandlerID × H)) : List (HandlerID × H) :=
  (id, h) :: mapErase id l

def mapKeys (l : List (HandlerID × H)) : List HandlerID :=
  l.map Prod.fst

def noRegisteredHandlerMsg (id : HandlerID) : Err :=
  "no registered handler with id " ++ "'" ++ id ++ "'"

structure EventBusState (H : Type) where
  handlers : List (HandlerID × H)
  handledEvents : Int → Finset HandlerID

/-- `NewEventBus`: empty handler map, empty handled-events map. -/
def newEventBus (H : Type) : EventBusState H :=
  { handlers := [], handledEvents := fun _ => ∅ }

/-- `EventBus.Register`: store the handler and add its id to the event's
handler-id set. -/
def register (id : HandlerID) (evt : Int) (h : H) (b : EventBusState H) : EventBusState H :=
  { handlers := mapInsert id h b.handlers
    handledEvents :=
      Function.update b.handledEvents evt (insert id (b.handledEvents evt)) }

/-- `EventBus.UnRegister`: a no-op when the id is not registered; otherwise
stop the handler, delete it from the handler map, and remove its id from
every event's handler-id set. -/
def unRegister (id : HandlerID) (b : EventBusState H) : EventBusState H :=
  match mapLookup id b.handlers with
  | none => b
  | some _ =>
    { handlers := mapErase id b.handlers
      handledEvents := fun e => (b.handledEvents e).erase id }

/-- `EventBus.AddHandledEvent`: error when the id is not registered, else
add the id to the event's handler-id set. -/
def addHandledEvent (id : HandlerID) (evt : Int) (b : EventBusState H) :
    Option Err × EventBusState H :=
  match mapLookup id b.handlers with
  | none => (some (noRegisteredHandlerMsg id), b)
  | some _ =>
    (none,
      { b with handledEvents :=
          Function.update b.handledEvents evt (insert id (b.handledEvents evt)) })

/-- `EventBus.SetHandledExclusive`: error when the id is not registered,
else replace the event's handler-id set with the singleton `{id}`. -/
def setHandledExclusive (id : HandlerID) (evt : Int) (b : EventBusState H) :
    Option Err × EventBusState H :=
  match mapLookup id b.handlers with
  | none => (some (noRegisteredHandlerMsg id), b)
  | some _ =>
    (none, { b with handledEvents := Function.update b.handledEvents evt {id} })

/-- `EventBus.RemoveHandledEvent`: error when the id is not registered,
else remove the id from the event's handler-id set. -/
def removeHandledEvent (id : HandlerID) (evt : Int) (b : EventBusState H) :
    Option Err × EventBusState H :=
  match mapLookup id b.handlers with
  | none => (some (noRegisteredHandlerMsg id), b)
  | some _ =>
    (none,
      { b with handledEvents :=
          Function.update b.handledEvents evt ((b.handledEvents evt).erase id) })

/-- A registration-table mutation. -/
inductive BusOp (H : Type) where
  | registerOp (id : HandlerID) (evt : Int) (h : H)
  | unRegisterOp (id : HandlerID)
  | addHandledEventOp (id : HandlerID) (evt : Int)
  | setHandledExclusiveOp (id : HandlerID) (evt : Int)
  | removeHandledEventOp (id : HandlerID) (evt : Int)

def runBusOps (b : EventBusState H) : List (BusOp H) → EventBusState H
  | [] => b
  | .registerOp id evt h :: rest => runBusOps (register id evt h b) rest
  | .unRegisterOp id :: rest => runBusOps (unRegister id b) rest
  | .addHandledEventOp id evt :: rest => runBusOps (addHandledEvent id evt b).2 rest
  | .setHandledExclusiveOp id evt :: rest => runBusOps (setHandledExclusive id evt b).2 rest
  | .removeHandledEventOp id evt :: rest => runBusOps (removeHandledEvent id evt b).2 rest

/-- Every event's handler-id set only names registered handler ids. -/
def BusInv (b : EventBusState H) : Prop :=
  ∀ (e : Int) (id : HandlerID), id ∈ b.handledEvents e → id ∈ mapKeys b.handlers

theorem mem_mapKeys_iff {id : HandlerID} {l : List (HandlerID × H)} :
    id ∈ mapKeys l ↔ (mapLookup id l).isSome := by
  induction l with
  | nil => simp [mapKeys, mapLookup]
  | cons kv rest ih =>
    obtain ⟨k, v⟩ := kv
    by_cases hk : k = id
    · subst hk
      simp [mapKeys, mapLookup]
    · simp only [mapKeys, List.map_cons, List.mem_cons, mapLookup, if_neg hk]
      rw [← mapKeys, ih]
      simp [Ne.symm hk]

theorem mem_mapKeys_mapInsert {x id : HandlerID} {h : H} {l : List (HandlerID × H)} :
    x ∈ mapKeys (mapInsert id h l) ↔ x = id ∨ x ∈ mapKeys l := by
  simp only [mapInsert, mapKeys, mapErase, List.map_cons, List.mem_cons]
  constructor
  · rintro (rfl | hx)
    · exact .inl rfl
    · obtain ⟨kv, hkv, rfl⟩ := List.mem_map.mp hx
      exact .inr (List.mem_map.mpr ⟨kv, List.mem_of_mem_filter hkv, rfl⟩)
  · rintro (rfl | hx)
    · exact .inl rfl
    · obtain ⟨kv, hkv, rfl⟩ := List.mem_map.mp hx
      by_cases hid : kv.1 = id
      · exact .inl hid
      · exact .inr (List.mem_map.mpr ⟨kv, List.mem_filter.mpr ⟨hkv, by simpa using hid⟩, rfl⟩)

theorem mem_mapKeys_mapErase {x id : HandlerID} {l : List (HandlerID × H)} :
    x ∈ mapKeys (mapErase id l) ↔ x ≠ id ∧ x ∈ mapKeys l := by
  simp only [mapKeys, mapErase]
  constructor
  · intro hx
    obtain ⟨kv, hkv, rfl⟩ := List.mem_map.mp hx
    obtain ⟨hmem, hne⟩ := List.mem_filter.mp hkv
    exact ⟨by simpa using hne, List.mem_map.mpr ⟨kv, hmem, rfl⟩⟩
  · rintro ⟨hne, hx⟩
    obtain ⟨kv, hkv, rfl⟩ := List.mem_map.mp hx
    exact List.mem_map.mpr ⟨kv, List.mem_filter.mpr ⟨hkv, by simpa using hne⟩, rfl⟩

theorem busInv_register {b : EventBusState H} (hb : BusInv b) (id : HandlerID)
    (evt : Int) (h : H) : BusInv (register id evt h b) := by
  intro e x hx
  rw [register] at hx ⊢
  simp only at hx
  rw [mem_mapKeys_mapInsert]
  by_cases he : e = evt
  · subst he
    rw [Function.update_same] at hx
    rcases Finset.mem_insert.mp hx with rfl | hx
    · exact .inl rfl
    · exact .inr (hb e x hx)
  · rw [Function.update_noteq he] at hx
    exact .inr (hb e x hx)

theorem busInv_unRegister {b : EventBusState H} (hb : BusInv b) (id : HandlerID) :
    BusInv (unRegister id b) := by
  intro e x hx
  rw [unRegister] at hx ⊢
  cases hl : mapLookup id b.handlers with
  | none => rw [hl] at hx; exact hb e x hx
  | some _ =>
    rw [hl] at hx
    obtain ⟨hne, hx⟩ := Finset.mem_erase.mp hx
    exact mem_mapKeys_mapErase.mpr ⟨hne, hb e x hx⟩

theorem busInv_update_of_mem {b : EventBusState H} (hb : BusInv b) (evt : Int)
    {s : Finset HandlerID}
    (hs : ∀ x ∈ s, x ∈ mapKeys b.handlers) :
    BusInv { b with handledEvents := Function.update b.handledEvents evt s } := by
  intro e x hx
  simp only at hx
  by_cases he : e = evt
  · subst he
    rw [Function.update_same] at hx
    exact hs x hx
  · rw [Function.update_noteq he] at hx
    exact hb e x hx

theorem busInv_runBusOps (ops : List (BusOp H)) :
    ∀ b : EventBusState H, BusInv b → BusInv (runBusOps b ops) := by
  induction ops with
  | nil => intro b hb; exact hb
  | cons op rest ih =>
    intro b hb
    cases op with
    | registerOp id evt h =>
      exact ih _ (busInv_register hb id evt h)
    | unRegisterOp id =>
      exact ih _ (busInv_unRegister hb id)
    | addHandledEventOp id evt =>
      rw [runBusOps, addHandledEvent]
      cases hl : mapLookup id b.handlers with
      | none => exact ih _ hb
      | some _ =>
        refine ih _ (busInv_update_of_mem hb evt ?_)
        intro x hx
        rcases Finset.mem_insert.mp hx with rfl | hx
        · exact mem_mapKeys_iff.mpr (by simp [hl])
        · exact hb evt x hx
    | setHandledExclusiveOp id evt =>
      rw [runBusOps, setHandledExclusive]
      cases hl : mapLookup id b.handlers with
      | none => exact ih _ hb
      | some _ =>
        refine ih _ (busInv_update_of_mem hb evt ?_)
        intro x hx
        rw [Finset.mem_singleton.mp hx]
        exact mem_mapKeys_iff.mpr (by simp [hl])
    | removeHandledEventOp id evt =>
      rw [runBusOps, removeHandledEvent]
      cases hl : mapLookup id b.handlers with
      | none => exact ih _ hb
      | some _ =>
        refine ih _ (busInv_update_of_mem hb evt ?_)
        intro x hx
        exact hb evt x (Finset.mem_of_mem_erase hx)

/-- C6: from a fresh `EventBus`, any sequence of `Register`, `UnRegister`,
`AddHandledEvent`, `SetHandledExclusive` and `RemoveHandledEvent`
operations keeps every event's handler-id set a subset of the handler
map's keys; `UnRegister(id)` deletes `id` from the handler map and from
every event's handler-id set, and is a no-op when `id` is not
registered. -/
theorem eventBus_registration_invariant (H : Type) (ops : List (BusOp H))
    (b : EventBusState H) (id : HandlerID) :
    BusInv (runBusOps (newEventBus H) ops) ∧
      ((mapLookup id b.handlers).isSome →
        (unRegister id b).handlers = mapErase id b.handlers ∧
          ∀ e : Int, (unRegister id b).handledEvents e = (b.handledEvents e).erase id) ∧
      (mapLookup id b.handlers = none → unRegister id b = b) := by
  refine ⟨busInv_runBusOps ops _ (by intro e x hx; simp [newEventBus] at hx), ?_, ?_⟩
  · intro hsome
    rw [unRegister]
    cases hl : mapLookup id b.handlers with
    | none => simp [hl] at hsome
    | some _ => exact ⟨rfl, fun e => rfl⟩
  · intro hnone
    rw [unRegister, hnone]

theorem eventBus_registration_invariant_witness :
    (mapLookup "a" (register "a" 2 0 (newEventBus Nat)).handlers).isSome = true ∧
      (unRegister "a" (register "a" 2 0 (newEventBus Nat))).handlers =
        mapErase "a" (register "a" 2 0 (newEventBus Nat)).handlers :=
  ⟨by decide,
    ((eventBus_registration_invariant Nat [] (register "a" 2 0 (newEventBus Nat))
      "a").2.1 (by decide)).1⟩

/-- C9: for a registered handler id, `SetHandledExclusive(id, event)` makes
the event's handler-id set exactly the singleton `{id}`, removing every id
currently bound to that event, and returns no error; it does not constrain
future bindings — a later `Register(id2, event, handler2)` adds `id2`, so
both ids are in the set afterwards; for an unregistered id an error is
returned and the state is unchanged. -/
theorem setHandledExclusive_singleton_then_register (b : EventBusState H)
    (id id2 : HandlerID) (evt : Int) (h2 : H) :
    ((mapLookup id b.handlers).isSome →
        (setHandledExclusive id evt b).1 = none ∧
          (setHandledExclusive id evt b).2.handledEvents evt = {id} ∧
          (register id2 evt h2 (setHandledExclusive id evt b).2).handledEvents evt =
            insert id2 {id} ∧
          id ∈ (register id2 evt h2 (setHandledExclusive id evt b).2).handledEvents evt ∧
          id2 ∈ (register id2 evt h2 (setHandledExclusive id evt b).2).handledEvents evt) ∧
      (mapLookup id b.handlers = none →
        (setHandledExclusive id evt b).1 = some (noRegisteredHandlerMsg id) ∧
          (setHandledExclusive id evt b).2 = b) := by
  constructor
  · intro hsome
    rw [setHandledExclusive]
    cases hl : mapLookup id b.handlers with
    | none => simp [hl] at hsome
    | some _ =>
      refine ⟨rfl, Function.update_same evt {id} b.handledEvents, ?_, ?_, ?_⟩
      · simp [register, Function.update_same]
      · simp [register, Function.update_same]
      · simp [register, Function.update_same]
  · intro hnone
    rw [setHandledExclusive, hnone]
    exact ⟨rfl, rfl⟩

theorem setHandledExclusive_singleton_then_register_witness :
    (mapLookup "a" (register "a" 5 0 (newEventBus Nat)).handlers).isSome = true ∧
      (setHandledExclusive "a" 5 (register "a" 5 0 (newEventBus Nat))).2.handledEvents 5 =
        {"a"} :=
  ⟨by decide,
    ((setHandledExclusive_singleton_then_register (register "a" 5 0 (newEventBus Nat))
      "a" "b" 5 1).1 (by decide)).2.1⟩

/-! ## Worker dispatch body (`EventBus.start`, newest revision)

Under the shared read lock, one worker processes one dispatch: it looks up
the handler-id set for the event, handles the empty set (no-handler error,
or silent drop for `EventAsyncError`), invokes every bound handler in the
set's iteration order, resolves the dispatch future with the first handler
error, appends every wrapped handler error to its local error buffer, and
finally runs the deferred `Resolve(nil)`. -/

/-- A handler's `HandleEvent` behaviour: event and params to error-or-nil. -/
def HandlerBeh (P : Type) := Int → List (BusParam P) → Option Err

/-- `fmt.Errorf("%w for event %d", ErrNoHandler, dispatch.event)`. -/
def noHandlersMessage (evt : Int) : Err :=
  ErrNoHandler ++ " for event " ++ toString evt

/-- `fmt.Errorf("handler '%s' failed to handle event %d: %v", id, event, err)`. -/
def handlerFailedMsg (id : HandlerID) (evt : Int) (e : Err) : Err :=
  "handler " ++ "'" ++ id ++ "'" ++ " failed to handle event " ++ toString evt ++ ": " ++ e

/-- The `for id := range handlers` loop of the worker: skip ids whose
handler has vanished, invoke the rest, resolve the future with each error
(only the first takes effect) and append the wrapped error to the local
buffer.  Also returns the ids whose handlers were invoked, in order. -/
def dispatchLoop (handlers : List (HandlerID × HandlerBeh P)) (evt : Int)
    (params : List (BusParam P)) :
    List HandlerID → FutureState (Option Err) → List Err → List HandlerID →
      FutureState (Option Err) × List Err × List HandlerID
  | [], fut, errs, invoked => (fut, errs, invoked)
  | id :: rest, fut, errs, invoked =>
    match mapLookup id handlers with
    | none => dispatchLoop handlers evt params rest fut errs invoked
    | some beh =>
      match beh evt params with
      | none => dispatchLoop handlers evt params rest fut errs (invoked ++ [id])
      | some e =>
        dispatchLoop handlers evt params rest (resolve (some e) fut)
          (errs ++ [handlerFailedMsg id evt e]) (invoked ++ [id])

/-- One dispatch processed by a worker (the body of the
`case dispatch, more := <-events.C` branch, under `RLockFunc`): `ids` is
the iteration order of the event's handler-id set.  Returns the dispatch
future, the worker's local error buffer, and the invoked handler ids. -/
def processDispatch (handlers : List (HandlerID × HandlerBeh P)) (ids : List HandlerID)
    (evt : Int) (params : List (BusParam P)) (fut : FutureState (Option Err))
    (errs : List Err) : FutureState (Option Err) × List Err × List HandlerID :=
  if ids = [] then
    if evt ≠ EventAsyncError then
      (resolve none (resolve (some (noHandlersMessage evt)) fut),
        errs ++ [noHandlersMessage evt], [])
    else (resolve none fut, errs, [])
  else
    let (fut', errs', invoked) := dispatchLoop handlers evt params ids fut errs []
    (resolve none fut', errs', invoked)

/-- The error this handler id contributes on this dispatch (`nil` when the
handler vanished or returned no error). -/
def handlerErrOf (handlers : List (HandlerID × HandlerBeh P)) (evt : Int)
    (params : List (BusParam P)) (id : HandlerID) : Option Err :=
  (mapLookup id handlers).bind fun beh => beh evt params

theorem dispatchLoop_resolved {handlers : List (HandlerID × HandlerBeh P)} {evt : Int}
    {params : List (BusParam P)} {fut : FutureState (Option Err)}
    (hfut : fut.resolved = true) :
    ∀ (ids : List HandlerID) (errs : List Err) (invoked : List HandlerID),
      dispatchLoop handlers evt params ids fut errs invoked =
        (fut,
          errs ++ ids.filterMap
            (fun id => (handlerErrOf handlers evt params id).map (handlerFailedMsg id evt)),
          invoked ++ ids.filter (fun id => (mapLookup id handlers).isSome)) := by
  intro ids
  induction ids with
  | nil => intro errs invoked; simp [dispatchLoop]
  | cons id rest ih =>
    intro errs invoked
    rw [dispatchLoop]
    cases hl : mapLookup id handlers with
    | none => simp [ih, handlerErrOf, hl, List.filter_cons, List.filterMap_cons]
    | some beh =>
      cases hb : beh evt params with
      | none =>
        simp [ih, handlerErrOf, hl, hb, List.filter_cons, List.filterMap_cons]
      | some e =>
        simp [ih, handlerErrOf, hl, hb, List.filter_cons, List.filterMap_cons,
          resolve, resolveErr_resolved hfut]

theorem dispatchLoop_newFuture {handlers : List (HandlerID × HandlerBeh P)} {evt : Int}
    {params : List (BusParam P)} :
    ∀ (ids : List HandlerID) (errs : List Err) (invoked : List HandlerID),
      dispatchLoop handlers evt params ids (newFuture none) errs invoked =
        ((match (ids.filterMap (handlerErrOf handlers evt params)).head? with
          | none => newFuture none
          | some e => futureResolvedWith (some e) none),
          errs ++ ids.filterMap
            (fun id => (handlerErrOf handlers evt params id).map (handlerFailedMsg id evt)),
          invoked ++ ids.filter (fun id => (mapLookup id handlers).isSome)) := by
  intro ids
  induction ids with
  | nil => intro errs invoked; simp [dispatchLoop]
  | cons id rest ih =>
    intro errs invoked
    rw [dispatchLoop]
    cases hl : mapLookup id handlers with
    | none =>
      simp [ih, handlerErrOf, hl, List.filter_cons, List.filterMap_cons]
    | some beh =>
      cases hb : beh evt params with
      | none =>
        simp [ih, handlerErrOf, hl, hb, List.filter_cons, List.filterMap_cons]
      | some e =>
        have hres : resolve (some e) (newFuture (none : Option Err)) =
            futureResolvedWith (some e) none := resolveErr_newFuture none (some e) none
        simp [hres, handlerErrOf, hl, hb, List.filter_cons, List.filterMap_cons,
          dispatchLoop_resolved
            (show (futureResolvedWith (some e) (none : Option Err)).resolved = true from rfl)]

/-- C2: a dispatch whose event is bound to handlers of which at least one
returns an error resolves its future with exactly the first error in
iteration order; every failing handler's error is wrapped as
`handler '<id>' failed to handle event <n>: <err>` and appended, in order,
to the worker's local error buffer; and the remaining handlers are still
invoked after one fails. -/
theorem worker_first_error_wins (handlers : List (HandlerID × HandlerBeh P))
    (ids : List HandlerID) (evt : Int) (params : List (BusParam P)) (errsIn : List Err)
    (hall : ∀ id ∈ ids, (mapLookup id handlers).isSome)
    (hne : ids.filterMap (handlerErrOf handlers evt params) ≠ []) :
    ∃ e₁, (ids.filterMap (handlerErrOf handlers evt params)).head? = some e₁ ∧
      processDispatch handlers ids evt params (newFuture none) errsIn =
        (futureResolvedWith (some e₁) none,
          errsIn ++ ids.filterMap
            (fun id => (handlerErrOf handlers evt params id).map (handlerFailedMsg id evt)),
          ids) := by
  obtain ⟨e₁, es, hes⟩ : ∃ e₁ es, ids.filterMap (handlerErrOf handlers evt params) = e₁ :: es := by
    cases h : ids.filterMap (handlerErrOf handlers evt params) with
    | nil => exact absurd h hne
    | cons e₁ es => exact ⟨e₁, es, rfl⟩
  have hids : ids ≠ [] := by
    intro h
    rw [h] at hes
    simp at hes
  refine ⟨e₁, by rw [hes]; rfl, ?_⟩
  rw [processDispatch, if_neg hids, dispatchLoop_newFuture, hes]
  simp only [List.head?_cons]
  have hfilter : ids.filter (fun id => (mapLookup id handlers).isSome) = ids := by
    rw [List.filter_eq_self]
    intro id hid
    exact hall id hid
  rw [hfilter]
  have : resolve none (futureResolvedWith (some e₁) (none : Option Err)) =
      futureResolvedWith (some e₁) none := resolveErr_resolved rfl none none
  rw [this]
  simp

theorem worker_first_error_wins_witness :
    (∀ id ∈ ["a", "b", "c"],
        (mapLookup id
          [("a", fun (_ : Int) (_ : List (BusParam Nat)) => (none : Option Err)),
            ("b", fun _ _ => some "bang"),
            ("c", fun _ _ => some "pow")]).isSome) ∧
      (["a", "b", "c"].filterMap
          (handlerErrOf
            [("a", fun (_ : Int) (_ : List (BusParam Nat)) => (none : Option Err)),
              ("b", fun _ _ => some "bang"),
              ("c", fun _ _ => some "pow")] 7 []) ≠ []) ∧
      ∃ e₁,
        (["a", "b", "c"].filterMap
            (handlerErrOf
              [("a", fun (_ : Int) (_ : List (BusParam Nat)) => (none : Option Err)),
                ("b", fun _ _ => some "bang"),
                ("c", fun _ _ => some "pow")] 7 [])).head? = some e₁ ∧
          processDispatch
              [("a", fun (_ : Int) (_ : List (BusParam Nat)) => (none : Option Err)),
                ("b", fun _ _ => some "bang"),
                ("c", fun _ _ => some "pow")]
              ["a", "b", "c"] 7 [] (newFuture none) [] =
            (futureResolvedWith (some e₁) none,
              [] ++ ["a", "b", "c"].filterMap
                (fun id =>
                  (handlerErrOf
                    [("a", fun (_ : Int) (_ : List (BusParam Nat)) => (none : Option Err)),
                      ("b", fun _ _ => some "bang"),
                      ("c", fun _ _ => some "pow")] 7 [] id).map (handlerFailedMsg id 7)),
              ["a", "b", "c"]) :=
  ⟨by intro id hid; fin_cases hid <;> rfl,
    by simp [handlerErrOf, mapLookup],
    worker_first_error_wins _ ["a", "b", "c"] 7 [] []
      (by intro id hid; fin_cases hid <;> rfl)
      (by simp [handlerErrOf, mapLookup])⟩

/-- C5: a dispatch whose event has an empty handler set resolves its
future with the no-handler error (wrapping `ErrNoHandler` and the event
id) and appends that same error to the worker's local error buffer — when
the event is not `ASYNC_ERROR`; an `ASYNC_ERROR` dispatch with no handler
is silently dropped: the future is resolved with success and the local
error buffer is untouched (so an empty buffer stays empty). -/
theorem worker_empty_handler_set (handlers : List (HandlerID × HandlerBeh P))
    (evt : Int) (params : List (BusParam P)) (errsIn : List Err) :
    (evt ≠ EventAsyncError →
        processDispatch handlers [] evt params (newFuture none) errsIn =
          (futureResolvedWith (some (noHandlersMessage evt)) none,
            errsIn ++ [noHandlersMessage evt], []) ∧
          (∃ suffix, noHandlersMessage evt = ErrNoHandler ++ suffix)) ∧
      (evt = EventAsyncError →
        processDispatch handlers [] evt params (newFuture none) errsIn =
          (futureResolvedWith none none, errsIn, [])) := by
  constructor
  · intro hne
    constructor
    · rw [processDispatch, if_pos rfl, if_pos hne]
      exact rfl
    · exact ⟨" for event " ++ toString evt, by simp [noHandlersMessage, String.append_assoc]⟩
  · intro heq
    rw [processDispatch, if_pos rfl, if_neg (by simp [heq])]
    exact rfl

theorem worker_empty_handler_set_witness :
    ((7 : Int) ≠ EventAsyncError ∧
        processDispatch ([] : List (HandlerID × HandlerBeh Nat)) [] 7 [] (newFuture none) [] =
          (futureResolvedWith (some (noHandlersMessage 7)) none, [noHandlersMessage 7], [])) ∧
      (EventAsyncError = EventAsyncError ∧
        processDispatch ([] : List (HandlerID × HandlerBeh Nat)) [] EventAsyncError []
            (newFuture none) [] =
          (futureResolvedWith none none, [], [])) :=
  ⟨⟨by decide,
      by
        have h := ((worker_empty_handler_set ([] : List (HandlerID × HandlerBeh Nat))
          7 [] []).1 (by decide)).1
        simpa using h⟩,
    ⟨rfl,
      (worker_empty_handler_set ([] : List (HandlerID × HandlerBeh Nat))
        EventAsyncError [] []).2 rfl⟩⟩

end SaylorX
